import Mathlib

/-!
Verification of the document reranking and compression interface
(`BedrockRerank.rerank` and `BedrockRerank.compress_documents`).

The repository ships only a sample notebook that calls the component, so the
component itself is modelled here from the specification: its data model
(Document, ScoredResult, RerankRequest), its behaviour (delegate scoring to a
remote oracle, sort descending by score with stable ties, truncate to top_k)
and its error taxonomy (InvalidArgument for malformed local input,
ServiceError for a failed or malformed remote response).

Scores are modelled as rationals; the remote oracle is a parameter returning
either one score per document or a failure.
-/

/-- Modelled from the spec: relevance scores are numeric values produced by
the remote oracle; we model them as rationals. -/
abbrev Score := ℚ

/-- Modelled from the spec: metadata values are arbitrary; we model the two
kinds that occur in the notebook, numeric scores and opaque strings. -/
inductive MVal where
  | num (q : Score)
  | str (s : String)
  deriving DecidableEq, Repr

/-- Modelled from the spec: a string-keyed metadata mapping, as an
association list. -/
abbrev Metadata := List (String × MVal)

/-- Modelled from the spec: a Document is opaque textual content plus a
metadata mapping. -/
structure Document where
  page_content : String
  metadata : Metadata
  deriving DecidableEq, Repr

/-- Modelled from the spec: a Document constructed with only page_content,
its metadata mapping empty (the notebook builds its documents this way). -/
def mkDoc (c : String) : Document := ⟨c, []⟩

/-- Modelled from the spec: a ScoredResult carries the position of the source
document in the input sequence, its relevance score, the content copied from
the source document, and the source metadata plus a relevance_score key. -/
structure ScoredResult where
  index : Nat
  relevance_score : Score
  content : String
  metadata : Metadata
  deriving DecidableEq, Repr

/-- Modelled from the spec: the error taxonomy of the component. -/
inductive RerankError where
  | invalidArgument
  | serviceError
  deriving DecidableEq, Repr

/-- Modelled from the spec: the remote scoring oracle, an external
collaborator. It receives the query and the document texts and returns one
relevance score per document, or fails (network, auth, malformed response). -/
abbrev Oracle := String → List String → Except Unit (List Score)

/-- Look a key up in a metadata mapping. -/
def getKey : Metadata → String → Option MVal
  | [], _ => none
  | (k', v') :: rest, k => if k' = k then some v' else getKey rest k

/-- Overwrite a key in a metadata mapping, or add it when absent
(the dict update performed on the metadata copy). -/
def setKey : Metadata → String → MVal → Metadata
  | [], k, v => [(k, v)]
  | (k', v') :: rest, k, v =>
      if k' = k then (k, v) :: rest else (k', v') :: setKey rest k v

/-- Modelled from the spec: pair each document text with its positional index
and its oracle score, building one ScoredResult per document. The metadata of
a ScoredResult over a plain text is the (empty) source metadata plus the
relevance_score key. -/
def mkResults : Nat → List String → List Score → List ScoredResult
  | _, [], _ => []
  | _, _ :: _, [] => []
  | i, c :: cs, s :: ss =>
      ⟨i, s, c, [("relevance_score", MVal.num s)]⟩ :: mkResults (i + 1) cs ss

/-- Ordering actually established on the output: descending relevance score,
ties broken by ascending original index (the stable-sort order, since the
index of an item is its position in the input). -/
def keyLT (a b : ScoredResult) : Prop :=
  b.relevance_score < a.relevance_score ∨
    (b.relevance_score = a.relevance_score ∧ a.index < b.index)

instance (a b : ScoredResult) : Decidable (keyLT a b) := by
  unfold keyLT; infer_instance

/-- Relation used to state that indices are pairwise distinct. -/
def indexNe (a b : ScoredResult) : Prop := a.index ≠ b.index

instance (a b : ScoredResult) : Decidable (indexNe a b) := by
  unfold indexNe; infer_instance

/-- Relation used to state that indices strictly increase along a list. -/
def indexLt (a b : ScoredResult) : Prop := a.index < b.index

/-- Insert an item into a list sorted by descending score: the item goes in
front of the first element whose score does not exceed it, so an earlier
input item precedes later items of equal score (stability). -/
def insertDesc (x : ScoredResult) : List ScoredResult → List ScoredResult
  | [] => [x]
  | y :: ys =>
      if y.relevance_score ≤ x.relevance_score then x :: y :: ys
      else y :: insertDesc x ys

/-- Modelled from the spec: stable sort by descending relevance score
(insertion sort, which is stable). -/
def sortDesc : List ScoredResult → List ScoredResult
  | [] => []
  | x :: xs => insertDesc x (sortDesc xs)

/-- Whether the optional top_k argument is present and negative. -/
def topKNegative : Option Int → Prop
  | some k => k < 0
  | none => False

instance (tk : Option Int) : Decidable (topKNegative tk) :=
  match tk with
  | some k => inferInstanceAs (Decidable (k < 0))
  | none => inferInstanceAs (Decidable False)

/-- Truncate the sorted results to top_k when it is given. -/
def truncate (top_k : Option Int) (rs : List ScoredResult) : List ScoredResult :=
  match top_k with
  | some k => rs.take k.toNat
  | none => rs

/-- Modelled from the spec: `rerank(query, documents, top_k)`. Fails with
InvalidArgument when the query is empty or top_k is negative; returns the
empty sequence on an empty document list; otherwise sends (query, documents)
to the oracle in a single request, fails with ServiceError when the remote
call fails or the response is incomplete, and on success sorts the scored
results descending by score (stable on ties) and truncates to top_k. -/
def rerank (oracle : Oracle) (query : String) (documents : List String)
    (top_k : Option Int) : Except RerankError (List ScoredResult) :=
  if query = "" then .error .invalidArgument
  else if topKNegative top_k then .error .invalidArgument
  else if documents = [] then .ok []
  else
    match oracle query documents with
    | .error _ => .error .serviceError
    | .ok scores =>
        if scores.length = documents.length then
          .ok (truncate top_k (sortDesc (mkResults 0 documents scores)))
        else .error .serviceError

/-- Reconstruct a Document from a ScoredResult: the source document at the
returned index, with relevance_score merged into a copy of its metadata.
Fails when the index is out of range of the source list. -/
def rebuild (documents : List Document) (r : ScoredResult) : Option Document :=
  (documents[r.index]?).map fun d =>
    ⟨d.page_content, setKey d.metadata "relevance_score" (MVal.num r.relevance_score)⟩

/-- Modelled from the spec: `compress_documents(documents, query)` extracts
the content of each Document, calls `rerank`, and reconstructs Document
objects in the returned order. -/
def compress_documents (oracle : Oracle) (documents : List Document)
    (query : String) : Except RerankError (List Document) :=
  (rerank oracle query (documents.map Document.page_content) none).map
    fun rs => rs.filterMap (rebuild documents)

/-- Total variant of `rebuild`, defined for the proof that all returned
indices are in range. -/
def rebuildTotal (documents : List Document) (r : ScoredResult) : Document :=
  let d := documents.getD r.index (mkDoc "")
  ⟨d.page_content, setKey d.metadata "relevance_score" (MVal.num r.relevance_score)⟩

/-- Stated from the spec's words for comparison: the convenience wrapper.
It extracts content from each Document, calls `rerank`, then rebuilds
Document objects in exactly the returned order, each being the source
Document at the returned index with relevance_score merged into a copy of
its metadata. -/
def compressSpec (oracle : Oracle) (documents : List Document)
    (query : String) : Except RerankError (List Document) :=
  (rerank oracle query (documents.map Document.page_content) none).map
    fun rs => rs.map (rebuildTotal documents)

/-! Concrete data used to evaluate the definitions on closed inputs. -/

/-- Oracle used for concrete evaluations: it answers every request with one
score of 1 per document (ties everywhere, so stability is visible). -/
def wOracle : Oracle := fun _ ds => .ok (ds.map fun _ => (1 : ℚ))

/-- First scored result of the concrete runs below. -/
def wr0 : ScoredResult := ⟨0, 1, "a", [("relevance_score", MVal.num 1)]⟩

/-- Second scored result of the concrete runs below. -/
def wr1 : ScoredResult := ⟨1, 1, "b", [("relevance_score", MVal.num 1)]⟩

/-- Value of the concrete rerank runs below. -/
def wRes : List ScoredResult := [wr0, wr1]

/-- Concrete document list with one nontrivial metadata mapping. -/
def wDocs : List Document := [⟨"a", [("k", MVal.str "v")]⟩, mkDoc "b"]

/-- First document of the concrete compress_documents run on wDocs. -/
def wOutHead : Document :=
  ⟨"a", [("k", MVal.str "v"), ("relevance_score", MVal.num 1)]⟩

/-- Value of the concrete compress_documents run on wDocs. -/
def wOut : List Document := [wOutHead, ⟨"b", [("relevance_score", MVal.num 1)]⟩]

/-- Concrete document list whose documents carry no metadata at all. -/
def wDocsBare : List Document := [mkDoc "a", mkDoc "b"]

/-- First document of the concrete compress_documents run on wDocsBare. -/
def wdBare : Document := ⟨"a", [("relevance_score", MVal.num 1)]⟩

/-- Value of the concrete compress_documents run on wDocsBare. -/
def wOutBare : List Document := [wdBare, ⟨"b", [("relevance_score", MVal.num 1)]⟩]


/-! Lemmas about the stable insertion sort. -/

theorem mem_insertDesc (x z : ScoredResult) (l : List ScoredResult)
    (h : z ∈ insertDesc x l) : z = x ∨ z ∈ l := by
  induction l with
  | nil => simpa [insertDesc] using h
  | cons y ys ih =>
      by_cases hc : y.relevance_score ≤ x.relevance_score
      · rw [insertDesc, if_pos hc] at h
        exact List.mem_cons.mp h
      · rw [insertDesc, if_neg hc] at h
        rcases List.mem_cons.mp h with h | h
        · exact Or.inr (h ▸ List.mem_cons_self y ys)
        · rcases ih h with h' | h'
          · exact Or.inl h'
          · exact Or.inr (List.mem_cons_of_mem _ h')

theorem insertDesc_perm (x : ScoredResult) (l : List ScoredResult) :
    List.Perm (insertDesc x l) (x :: l) := by
  induction l with
  | nil => exact List.Perm.refl _
  | cons y ys ih =>
      by_cases hc : y.relevance_score ≤ x.relevance_score
      · rw [insertDesc, if_pos hc]
      · rw [insertDesc, if_neg hc]
        exact (ih.cons y).trans (List.Perm.swap x y ys)

theorem sortDesc_perm (l : List ScoredResult) : List.Perm (sortDesc l) l := by
  induction l with
  | nil => exact List.Perm.refl _
  | cons x xs ih => exact (insertDesc_perm x (sortDesc xs)).trans (ih.cons x)

theorem keyLT_score_le {a b : ScoredResult} (h : keyLT a b) :
    b.relevance_score ≤ a.relevance_score := by
  rcases h with h | ⟨h, _⟩
  · exact le_of_lt h
  · exact le_of_eq h

theorem keyLT_of_le_lt {a b : ScoredResult}
    (h1 : b.relevance_score ≤ a.relevance_score) (h2 : a.index < b.index) :
    keyLT a b := by
  rcases lt_or_eq_of_le h1 with h | h
  · exact Or.inl h
  · exact Or.inr ⟨h, h2⟩

theorem insertDesc_pairwise {x : ScoredResult} {l : List ScoredResult}
    (hl : l.Pairwise keyLT) (hx : ∀ y ∈ l, x.index < y.index) :
    (insertDesc x l).Pairwise keyLT := by
  induction l with
  | nil => simp [insertDesc]
  | cons y ys ih =>
      rcases List.pairwise_cons.mp hl with ⟨hy, hys⟩
      by_cases hc : y.relevance_score ≤ x.relevance_score
      · rw [insertDesc, if_pos hc]
        refine List.pairwise_cons.mpr ⟨?_, hl⟩
        intro z hz
        rcases List.mem_cons.mp hz with rfl | hz
        · exact keyLT_of_le_lt hc (hx z (List.mem_cons_self _ _))
        · exact keyLT_of_le_lt (le_trans (keyLT_score_le (hy z hz)) hc)
            (hx z (List.mem_cons_of_mem _ hz))
      · rw [insertDesc, if_neg hc]
        refine List.pairwise_cons.mpr
          ⟨?_, ih hys (fun z hz => hx z (List.mem_cons_of_mem _ hz))⟩
        intro z hz
        rcases mem_insertDesc x z _ hz with rfl | hz
        · exact Or.inl (lt_of_not_le hc)
        · exact hy z hz

theorem sortDesc_pairwise {l : List ScoredResult}
    (h : l.Pairwise indexLt) : (sortDesc l).Pairwise keyLT := by
  induction l with
  | nil => simp [sortDesc]
  | cons x xs ih =>
      rcases List.pairwise_cons.mp h with ⟨hx, hxs⟩
      exact insertDesc_pairwise (ih hxs)
        (fun y hy => hx y ((sortDesc_perm xs).mem_iff.mp hy))

/-! Lemmas about the construction of scored results. -/

theorem mkResults_index_bounds :
    ∀ (n : Nat) (cs : List String) (ss : List Score) (r : ScoredResult),
      r ∈ mkResults n cs ss → n ≤ r.index ∧ r.index < n + cs.length := by
  intro n cs
  induction cs generalizing n with
  | nil => intro ss r h; simp [mkResults] at h
  | cons c cs ih =>
      intro ss r h
      cases ss with
      | nil => simp [mkResults] at h
      | cons s ss =>
          rw [mkResults] at h
          rcases List.mem_cons.mp h with rfl | h
          · exact ⟨Nat.le_refl n, by simp⟩
          · rcases ih (n + 1) ss r h with ⟨h1, h2⟩
            exact ⟨by omega, by simp; omega⟩

theorem mkResults_pairwise (n : Nat) (cs : List String) (ss : List Score) :
    (mkResults n cs ss).Pairwise indexLt := by
  induction cs generalizing n ss with
  | nil => simp [mkResults]
  | cons c cs ih =>
      cases ss with
      | nil => simp [mkResults]
      | cons s ss =>
          rw [mkResults]
          refine List.pairwise_cons.mpr ⟨?_, ih (n + 1) ss⟩
          intro r hr
          have := (mkResults_index_bounds (n + 1) cs ss r hr).1
          show n < r.index
          omega

theorem mkResults_get :
    ∀ (n : Nat) (cs : List String) (ss : List Score) (r : ScoredResult),
      r ∈ mkResults n cs ss →
        cs[r.index - n]? = some r.content ∧
          ss[r.index - n]? = some r.relevance_score := by
  intro n cs
  induction cs generalizing n with
  | nil => intro ss r h; simp [mkResults] at h
  | cons c cs ih =>
      intro ss r h
      cases ss with
      | nil => simp [mkResults] at h
      | cons s ss =>
          rw [mkResults] at h
          rcases List.mem_cons.mp h with rfl | h
          · simp
          · have hb := (mkResults_index_bounds (n + 1) cs ss r h).1
            rcases ih (n + 1) ss r h with ⟨h1, h2⟩
            have e : r.index - n = (r.index - (n + 1)) + 1 := by omega
            rw [e]
            simpa using ⟨h1, h2⟩

theorem mkResults_metadata :
    ∀ (n : Nat) (cs : List String) (ss : List Score) (r : ScoredResult),
      r ∈ mkResults n cs ss →
        r.metadata = [("relevance_score", MVal.num r.relevance_score)] := by
  intro n cs
  induction cs generalizing n with
  | nil => intro ss r h; simp [mkResults] at h
  | cons c cs ih =>
      intro ss r h
      cases ss with
      | nil => simp [mkResults] at h
      | cons s ss =>
          rw [mkResults] at h
          rcases List.mem_cons.mp h with rfl | h
          · rfl
          · exact ih (n + 1) ss r h

theorem mkResults_score_mem :
    ∀ (n : Nat) (cs : List String) (ss : List Score) (r : ScoredResult),
      r ∈ mkResults n cs ss → r.relevance_score ∈ ss := by
  intro n cs
  induction cs generalizing n with
  | nil => intro ss r h; simp [mkResults] at h
  | cons c cs ih =>
      intro ss r h
      cases ss with
      | nil => simp [mkResults] at h
      | cons s ss =>
          rw [mkResults] at h
          rcases List.mem_cons.mp h with rfl | h
          · exact List.mem_cons_self _ _
          · exact List.mem_cons_of_mem _ (ih (n + 1) ss r h)

theorem mkResults_length :
    ∀ (n : Nat) (cs : List String) (ss : List Score), ss.length = cs.length →
      (mkResults n cs ss).length = cs.length := by
  intro n cs
  induction cs generalizing n with
  | nil => intro ss h; simp [mkResults]
  | cons c cs ih =>
      intro ss h
      cases ss with
      | nil => simp at h
      | cons s ss =>
          rw [mkResults]
          simp only [List.length_cons] at h ⊢
          exact congrArg (· + 1) (ih (n + 1) ss (by omega))

/-! Lemmas about truncation. -/

theorem truncate_sublist (tk : Option Int) (rs : List ScoredResult) :
    List.Sublist (truncate tk rs) rs := by
  cases tk with
  | none => exact List.Sublist.refl rs
  | some k => exact List.take_sublist _ _

theorem truncate_length_some (k : Int) (rs : List ScoredResult) :
    (truncate (some k) rs).length = min k.toNat rs.length := by
  simp [truncate]

/-! Characterization of a successful call to `rerank`. -/

theorem rerank_ok_cases {oracle : Oracle} {q : String} {docs : List String}
    {tk : Option Int} {res : List ScoredResult}
    (h : rerank oracle q docs tk = .ok res) :
    q ≠ "" ∧ ¬ topKNegative tk ∧
      ((docs = [] ∧ res = []) ∨
        ∃ scores, oracle q docs = .ok scores ∧ scores.length = docs.length ∧
          res = truncate tk (sortDesc (mkResults 0 docs scores))) := by
  unfold rerank at h
  by_cases h1 : q = ""
  · rw [if_pos h1] at h; exact absurd h (by simp)
  rw [if_neg h1] at h
  by_cases h2 : topKNegative tk
  · rw [if_pos h2] at h; exact absurd h (by simp)
  rw [if_neg h2] at h
  by_cases h3 : docs = []
  · rw [if_pos h3] at h
    refine ⟨h1, h2, Or.inl ⟨h3, ?_⟩⟩
    injection h with h
    exact h.symm
  rw [if_neg h3] at h
  cases ho : oracle q docs with
  | error e => rw [ho] at h; exact absurd h (by simp)
  | ok scores =>
      rw [ho] at h
      dsimp only at h
      by_cases h4 : scores.length = docs.length
      · rw [if_pos h4] at h
        injection h with h
        exact ⟨h1, h2, Or.inr ⟨scores, rfl, h4, h.symm⟩⟩
      · rw [if_neg h4] at h; exact absurd h (by simp)


/-! Facts about every element of a successful rerank result. -/

theorem rerank_ok_mem {oracle : Oracle} {q : String} {docs : List String}
    {tk : Option Int} {res : List ScoredResult}
    (h : rerank oracle q docs tk = .ok res) (r : ScoredResult) (hr : r ∈ res) :
    r.index < docs.length ∧ docs[r.index]? = some r.content ∧
      r.metadata = [("relevance_score", MVal.num r.relevance_score)] ∧
      ∃ scores, oracle q docs = .ok scores ∧ r.relevance_score ∈ scores := by
  rcases rerank_ok_cases h with ⟨-, -, ⟨-, rfl⟩ | ⟨scores, ho, -, rfl⟩⟩
  · exact absurd hr (List.not_mem_nil r)
  · have hm : r ∈ mkResults 0 docs scores :=
      (sortDesc_perm _).mem_iff.mp ((truncate_sublist tk _).mem hr)
    have hb := (mkResults_index_bounds 0 docs scores r hm).2
    have hg := mkResults_get 0 docs scores r hm
    rw [Nat.sub_zero] at hg
    exact ⟨by omega, hg.1, mkResults_metadata 0 docs scores r hm,
      scores, ho, mkResults_score_mem 0 docs scores r hm⟩

theorem rerank_ok_pairwise_keyLT {oracle : Oracle} {q : String}
    {docs : List String} {tk : Option Int} {res : List ScoredResult}
    (h : rerank oracle q docs tk = .ok res) : res.Pairwise keyLT := by
  rcases rerank_ok_cases h with ⟨-, -, ⟨-, rfl⟩ | ⟨scores, -, -, rfl⟩⟩
  · exact List.Pairwise.nil
  · exact List.Pairwise.sublist (truncate_sublist tk _)
      (sortDesc_pairwise (mkResults_pairwise 0 docs scores))

theorem rerank_ok_pairwise_indexNe {oracle : Oracle} {q : String}
    {docs : List String} {tk : Option Int} {res : List ScoredResult}
    (h : rerank oracle q docs tk = .ok res) : res.Pairwise indexNe := by
  rcases rerank_ok_cases h with ⟨-, -, ⟨-, rfl⟩ | ⟨scores, -, -, rfl⟩⟩
  · exact List.Pairwise.nil
  · have hp : (mkResults 0 docs scores).Pairwise indexNe :=
      (mkResults_pairwise 0 docs scores).imp (fun hlt => Nat.ne_of_lt hlt)
    have hs : (sortDesc (mkResults 0 docs scores)).Pairwise indexNe :=
      ((sortDesc_perm _).pairwise_iff (fun h => Ne.symm h)).mpr hp
    exact List.Pairwise.sublist (truncate_sublist tk _) hs

theorem rerank_ok_length {oracle : Oracle} {q : String} {docs : List String}
    {tk : Option Int} {res : List ScoredResult}
    (h : rerank oracle q docs tk = .ok res) :
    res.length = match tk with
      | some k => min k.toNat docs.length
      | none => docs.length := by
  rcases rerank_ok_cases h with ⟨-, -, ⟨rfl, rfl⟩ | ⟨scores, -, hlen, rfl⟩⟩
  · cases tk <;> simp
  · have hlen' : (sortDesc (mkResults 0 docs scores)).length = docs.length := by
      rw [(sortDesc_perm _).length_eq, mkResults_length 0 docs scores hlen]
    cases tk with
    | none => exact hlen'
    | some k => rw [truncate_length_some, hlen']

/-! Lemmas about the metadata update. -/

theorem getKey_setKey_self (m : Metadata) (k : String) (v : MVal) :
    getKey (setKey m k v) k = some v := by
  induction m with
  | nil => simp [setKey, getKey]
  | cons p rest ih =>
      rcases p with ⟨k', v'⟩
      by_cases hc : k' = k
      · rw [setKey, if_pos hc, getKey, if_pos rfl]
      · rw [setKey, if_neg hc, getKey, if_neg hc]
        exact ih

theorem getKey_setKey_ne (m : Metadata) (k k' : String) (h : k' ≠ k)
    (v : MVal) : getKey (setKey m k v) k' = getKey m k' := by
  induction m with
  | nil => simp [setKey, getKey, Ne.symm h]
  | cons p rest ih =>
      rcases p with ⟨k0, v0⟩
      by_cases hc : k0 = k
      · subst hc
        simp [setKey, getKey, Ne.symm h]
      · by_cases hc' : k0 = k'
        · simp [setKey, getKey, hc, hc', h]
        · simp [setKey, getKey, hc, hc', ih]

/-! Characterization of a successful call to `compress_documents`. -/

theorem compress_ok_cases {oracle : Oracle} {docs : List Document} {q : String}
    {out : List Document} (h : compress_documents oracle docs q = .ok out) :
    ∃ rs, rerank oracle q (docs.map Document.page_content) none = .ok rs ∧
      out = rs.filterMap (rebuild docs) := by
  unfold compress_documents at h
  cases hr : rerank oracle q (docs.map Document.page_content) none with
  | error e => rw [hr] at h; exact absurd h (by simp [Except.map])
  | ok rs =>
      rw [hr] at h
      simp only [Except.map] at h
      injection h with h
      exact ⟨rs, rfl, h.symm⟩

theorem compress_error_of_rerank_error {oracle : Oracle} {docs : List Document}
    {q : String} {e : RerankError}
    (h : rerank oracle q (docs.map Document.page_content) none = .error e) :
    compress_documents oracle docs q = .error e := by
  unfold compress_documents
  rw [h]
  rfl

theorem compress_ok_mem {oracle : Oracle} {docs : List Document} {q : String}
    {out : List Document} (h : compress_documents oracle docs q = .ok out)
    (d' : Document) (hd' : d' ∈ out) :
    ∃ rs r, rerank oracle q (docs.map Document.page_content) none = .ok rs ∧
      r ∈ rs ∧ ∃ d, docs[r.index]? = some d ∧
        d' = ⟨d.page_content,
          setKey d.metadata "relevance_score" (MVal.num r.relevance_score)⟩ := by
  rcases compress_ok_cases h with ⟨rs, hr, rfl⟩
  rcases List.mem_filterMap.mp hd' with ⟨r, hrmem, hrb⟩
  unfold rebuild at hrb
  cases hg : docs[r.index]? with
  | none => rw [hg] at hrb; exact absurd hrb (by simp)
  | some d =>
      rw [hg] at hrb
      simp only [Option.map_some'] at hrb
      injection hrb with hrb
      exact ⟨rs, r, hr, hrmem, d, hg, hrb.symm⟩

theorem rebuild_eq_total {docs : List Document} {r : ScoredResult}
    (h : r.index < docs.length) :
    rebuild docs r = some (rebuildTotal docs r) := by
  unfold rebuild rebuildTotal
  rw [List.getElem?_eq_getElem h, List.getD_eq_getElem?_getD,
    List.getElem?_eq_getElem h]
  rfl

theorem filterMap_rebuild_eq_map {docs : List Document}
    {rs : List ScoredResult} (h : ∀ r ∈ rs, r.index < docs.length) :
    rs.filterMap (rebuild docs) = rs.map (rebuildTotal docs) := by
  induction rs with
  | nil => rfl
  | cons r rs ih =>
      rw [List.filterMap_cons, rebuild_eq_total (h r (List.mem_cons_self _ _)),
        List.map_cons, ih (fun x hx => h x (List.mem_cons_of_mem _ hx))]

theorem mem_of_getElem_opt {α : Type} {l : List α} {a : α} {i : Nat}
    (h : l[i]? = some a) : a ∈ l := by
  rcases List.getElem?_eq_some_iff.mp h with ⟨hlt, rfl⟩
  exact List.getElem_mem hlt

/-! Theorems for the claims. -/

/-- C1: for every query and every sequence of input documents, a successful
rerank returns a sequence sorted by descending relevance_score, and for items
with equal scores the relative order of the corresponding input documents
(their positional indices) is preserved: along the output, either the score
strictly drops or it stays equal and the index strictly grows. -/
theorem rerank_sorted_stable (oracle : Oracle) (q : String)
    (docs : List String) (tk : Option Int) (res : List ScoredResult)
    (h : rerank oracle q docs tk = .ok res) : res.Pairwise keyLT :=
  rerank_ok_pairwise_keyLT h

theorem rerank_sorted_stable_witness : wRes.Pairwise keyLT :=
  rerank_sorted_stable wOracle "q" ["a", "b"] none wRes (by rfl)

/-- C2: a successful rerank returns at most min(top_k, len(documents)) items
when top_k is given, exactly len(documents) items when top_k is absent, and
exactly 2 items when top_k = 2 and there are 3 input documents. -/
theorem rerank_length_bounds (oracle : Oracle) (q : String)
    (docs : List String) (tk : Option Int) (res : List ScoredResult)
    (h : rerank oracle q docs tk = .ok res) :
    (∀ k, tk = some k → res.length ≤ min k.toNat docs.length) ∧
      (tk = none → res.length = docs.length) ∧
      (tk = some 2 → docs.length = 3 → res.length = 2) := by
  have hl := rerank_ok_length h
  refine ⟨?_, ?_, ?_⟩
  · intro k hk
    subst hk
    exact le_of_eq hl
  · intro hk
    subst hk
    exact hl
  · intro hk h3
    subst hk
    have hm : res.length = min (Int.toNat 2) docs.length := hl
    rw [h3] at hm
    omega
  
theorem rerank_length_bounds_witness : wRes.length = 2 :=
  (rerank_length_bounds wOracle "q" ["a", "b", "c"] (some 2) wRes
    (by rfl)).2.2 rfl rfl

/-- C3: every index carried by an item of a successful rerank result is in
range of the input document list (so indexing it cannot go out of bounds)
and no two returned items carry the same index. -/
theorem rerank_indices_valid (oracle : Oracle) (q : String)
    (docs : List String) (tk : Option Int) (res : List ScoredResult)
    (h : rerank oracle q docs tk = .ok res) :
    (∀ r ∈ res, r.index < docs.length ∧ (docs[r.index]?).isSome = true) ∧
      res.Pairwise indexNe := by
  refine ⟨fun r hr => ?_, rerank_ok_pairwise_indexNe h⟩
  rcases rerank_ok_mem h r hr with ⟨h1, h2, -, -⟩
  exact ⟨h1, by rw [h2]; rfl⟩

theorem rerank_indices_valid_witness :
    (wr0.index < (["a", "b"] : List String).length ∧
      ((["a", "b"] : List String)[wr0.index]?).isSome = true) ∧
      wRes.Pairwise indexNe :=
  ⟨(rerank_indices_valid wOracle "q" ["a", "b"] none wRes (by rfl)).1 wr0
      (List.mem_cons_self wr0 [wr1] : wr0 ∈ wRes),
    (rerank_indices_valid wOracle "q" ["a", "b"] none wRes (by rfl)).2⟩

/-- C4: every Document returned by a successful compress_documents keeps
every metadata key of its source Document (the one the rerank call's item
points at) with its original value, except relevance_score, which is added
or overwritten with that item's score from the rerank call; no other key is
removed or changed. -/
theorem compress_documents_metadata_preserved (oracle : Oracle)
    (docs : List Document) (q : String) (out : List Document)
    (h : compress_documents oracle docs q = .ok out) :
    ∀ d' ∈ out, ∃ rs r,
      rerank oracle q (docs.map Document.page_content) none = .ok rs ∧
        r ∈ rs ∧ ∃ d ∈ docs, docs[r.index]? = some d ∧
          d'.page_content = d.page_content ∧
            (∀ key, key ≠ "relevance_score" →
              getKey d'.metadata key = getKey d.metadata key) ∧
            getKey d'.metadata "relevance_score" =
              some (MVal.num r.relevance_score) := by
  intro d' hd'
  rcases compress_ok_mem h d' hd' with ⟨rs, r, hr, hrmem, d, hg, rfl⟩
  exact ⟨rs, r, hr, hrmem, d, mem_of_getElem_opt hg, hg, rfl,
    fun key hk => getKey_setKey_ne d.metadata "relevance_score" key hk _,
    getKey_setKey_self d.metadata _ _⟩

theorem compress_documents_metadata_preserved_witness :
    ∃ rs r, rerank wOracle "q" (wDocs.map Document.page_content) none = .ok rs ∧
      r ∈ rs ∧ ∃ d ∈ wDocs, wDocs[r.index]? = some d ∧
        wOutHead.page_content = d.page_content ∧
          (∀ key, key ≠ "relevance_score" →
            getKey wOutHead.metadata key = getKey d.metadata key) ∧
          getKey wOutHead.metadata "relevance_score" =
            some (MVal.num r.relevance_score) :=
  compress_documents_metadata_preserved wOracle wDocs "q" wOut (by rfl)
    wOutHead (List.mem_cons_self wOutHead _ : wOutHead ∈ wOut)

/-- C5: compress_documents is exactly the convenience wrapper over rerank
described by the spec: it extracts the content of each input Document, calls
rerank on those texts with top_k absent, and returns, in exactly the order
rerank returned, the source Document at each returned index with
relevance_score merged into a copy of its metadata; rerank failures are
surfaced unchanged. -/
theorem compress_documents_eq_spec (oracle : Oracle) (docs : List Document)
    (q : String) :
    compress_documents oracle docs q = compressSpec oracle docs q := by
  unfold compress_documents compressSpec
  cases hr : rerank oracle q (docs.map Document.page_content) none with
  | error e => rfl
  | ok rs =>
      simp only [Except.map]
      congr 1
      apply filterMap_rebuild_eq_map
      intro r hrm
      have h1 := (rerank_ok_mem hr r hrm).1
      rwa [List.length_map] at h1

/-- C6: rerank fails with InvalidArgument exactly when the local input is
malformed, that is, when the query is empty or top_k is negative; in
particular an empty query always yields InvalidArgument. -/
theorem rerank_invalidArgument_iff (oracle : Oracle) (q : String)
    (docs : List String) (tk : Option Int) :
    (rerank oracle q docs tk = .error .invalidArgument ↔
      q = "" ∨ ∃ k, tk = some k ∧ k < 0) ∧
      rerank oracle "" docs tk = .error .invalidArgument := by
  refine ⟨⟨?_, ?_⟩, ?_⟩
  · intro h
    unfold rerank at h
    by_cases h1 : q = ""
    · exact Or.inl h1
    rw [if_neg h1] at h
    by_cases h2 : topKNegative tk
    · refine Or.inr ?_
      cases tk with
      | none => exact absurd h2 (fun h' => h')
      | some k => exact ⟨k, rfl, h2⟩
    rw [if_neg h2] at h
    by_cases h3 : docs = []
    · rw [if_pos h3] at h
      exact absurd h (by simp)
    rw [if_neg h3] at h
    cases ho : oracle q docs with
    | error e =>
        rw [ho] at h
        dsimp only at h
        refine absurd h fun hx => ?_
        injection hx with hx
        exact RerankError.noConfusion hx
    | ok scores =>
        rw [ho] at h
        dsimp only at h
        by_cases h4 : scores.length = docs.length
        · rw [if_pos h4] at h
          exact absurd h (by simp)
        · rw [if_neg h4] at h
          injection h with h
          exact RerankError.noConfusion h
  · intro h
    rcases h with rfl | ⟨k, rfl, hk⟩
    · rw [rerank, if_pos rfl]
    · unfold rerank
      by_cases h1 : q = ""
      · rw [if_pos h1]
      · rw [if_neg h1, if_pos (show topKNegative (some k) from hk)]
  · rw [rerank, if_pos rfl]

/-- C7: for every non-empty query (and any non-negative or absent top_k),
rerank on an empty document list succeeds and returns the empty sequence. -/
theorem rerank_empty_documents (oracle : Oracle) (q : String)
    (tk : Option Int) (hq : q ≠ "") (htk : ¬ topKNegative tk) :
    rerank oracle q [] tk = .ok [] := by
  unfold rerank
  rw [if_neg hq, if_neg htk, if_pos rfl]

theorem rerank_empty_documents_witness : rerank wOracle "q" [] none = .ok [] :=
  rerank_empty_documents wOracle "q" none (by decide) (fun h => h)

/-- C8: every item of a successful rerank result is a ScoredResult whose
index points at the source document, whose content is copied from that
document, and whose metadata is the (empty) source metadata of the plain
text with the relevance_score key added; the relevance_score field itself is
the fourth carried field. -/
theorem rerank_result_fields (oracle : Oracle) (q : String)
    (docs : List String) (tk : Option Int) (res : List ScoredResult)
    (h : rerank oracle q docs tk = .ok res) :
    ∀ r ∈ res, r.index < docs.length ∧ docs[r.index]? = some r.content ∧
      r.metadata = setKey [] "relevance_score" (MVal.num r.relevance_score) := by
  intro r hr
  rcases rerank_ok_mem h r hr with ⟨h1, h2, h3, -⟩
  exact ⟨h1, h2, h3⟩

theorem rerank_result_fields_witness :
    wr1.index < (["a", "b"] : List String).length ∧
      (["a", "b"] : List String)[wr1.index]? = some wr1.content ∧
      wr1.metadata = setKey [] "relevance_score" (MVal.num wr1.relevance_score) :=
  rerank_result_fields wOracle "q" ["a", "b"] none wRes (by rfl) wr1
    (List.mem_cons_of_mem wr0 (List.mem_cons_self wr1 []) : wr1 ∈ wRes)

/-- C9: when the remote oracle only produces scores in the interval [0,1]
(the contract the spec states for relevance scores), every relevance_score
attached to an item returned by rerank, and every relevance_score stored in
the metadata of a Document returned by compress_documents, lies in [0,1]. -/
theorem relevance_scores_in_unit_interval (oracle : Oracle)
    (hor : ∀ q ds ss, oracle q ds = .ok ss → ∀ s ∈ ss, 0 ≤ s ∧ s ≤ 1) :
    (∀ q docs tk res, rerank oracle q docs tk = .ok res →
      ∀ r ∈ res, 0 ≤ r.relevance_score ∧ r.relevance_score ≤ 1) ∧
      (∀ docs q out, compress_documents oracle docs q = .ok out →
        ∀ d ∈ out, ∀ s, getKey d.metadata "relevance_score" = some (MVal.num s) →
          0 ≤ s ∧ s ≤ 1) := by
  have hre : ∀ q docs tk res, rerank oracle q docs tk = .ok res →
      ∀ r ∈ res, 0 ≤ r.relevance_score ∧ r.relevance_score ≤ 1 := by
    intro q docs tk res h r hr
    rcases rerank_ok_mem h r hr with ⟨-, -, -, scores, ho, hs⟩
    exact hor q docs scores ho _ hs
  refine ⟨hre, ?_⟩
  intro docs q out h d hd s hs
  rcases compress_ok_mem h d hd with ⟨rs, r, hr, hrmem, d0, -, rfl⟩
  rw [getKey_setKey_self] at hs
  injection hs with hs
  injection hs with hs
  subst hs
  exact hre q (docs.map Document.page_content) none rs hr r hrmem

theorem wOracle_bounds (q : String) (ds : List String) (ss : List Score)
    (h : wOracle q ds = .ok ss) : ∀ s ∈ ss, 0 ≤ s ∧ s ≤ 1 := by
  intro s hs
  injection h with h
  subst h
  rcases List.mem_map.mp hs with ⟨-, -, rfl⟩
  exact ⟨zero_le_one, le_refl 1⟩

theorem relevance_scores_in_unit_interval_witness :
    0 ≤ wr0.relevance_score ∧ wr0.relevance_score ≤ 1 :=
  (relevance_scores_in_unit_interval wOracle
      (fun q ds ss h => wOracle_bounds q ds ss h)).1
    "q" ["a", "b"] none wRes (by rfl) wr0
    (List.mem_cons_self wr0 [wr1] : wr0 ∈ wRes)

/-- C10: compress_documents accepts Documents that carry no metadata at all,
and every Document it returns nevertheless has the relevance_score key
present in its metadata, so looking that key up always succeeds. -/
theorem compress_documents_score_key_present (oracle : Oracle)
    (docs : List Document) (q : String) (out : List Document)
    (_hmeta : ∀ d ∈ docs, d.metadata = ([] : Metadata))
    (h : compress_documents oracle docs q = .ok out) :
    ∀ d ∈ out, (getKey d.metadata "relevance_score").isSome = true := by
  intro d hd
  rcases compress_ok_mem h d hd with ⟨rs, r, -, -, d0, -, rfl⟩
  rw [getKey_setKey_self]
  rfl

theorem compress_documents_score_key_present_witness :
    (getKey wdBare.metadata "relevance_score").isSome = true :=
  compress_documents_score_key_present wOracle wDocsBare "q" wOutBare
    (by decide) (by rfl) wdBare
    (List.mem_cons_self wdBare _ : wdBare ∈ wOutBare)
